import Mathlib

/-!
Verification of the COBRE connectivity-analysis tutorial pipeline
(`src/BrainHack/Paris_2017/plot_cobre_connectivity_analysis.ipynb`).

The notebook is glue code sequencing calls into external scientific
libraries (nilearn, scikit-learn).  The library routines it invokes
(`sym_to_vec`, `StratifiedShuffleSplit`, `cross_val_score`,
`ConnectivityMeasure`, `NiftiLabelsMasker`) are not part of the
repository's sources, so they are modelled here from the specification's
contracts; each such definition carries a doc comment starting with
`Modelled from the spec:`.  The notebook's own glue (the seeded cross
validator, the two scoring loops, the report of mean and deviation) is
embedded directly.
-/

namespace Cobre

/-! ## The scalar carrier ℚ(√2) for the vectorizer

The vectorizer scales off-diagonal entries by √2.  To keep every
definition executable we work in the ring ℚ adjoin √2, represented as
pairs `re + im·√2` of rationals, rather than in the noncomputable reals. -/

structure Q2 where
  re : ℚ
  im : ℚ
deriving DecidableEq, Repr

def Q2.mul (x y : Q2) : Q2 :=
  ⟨x.re * y.re + 2 * x.im * y.im, x.re * y.im + x.im * y.re⟩

instance : Mul Q2 := ⟨Q2.mul⟩

instance : Zero Q2 := ⟨⟨0, 0⟩⟩

/-- The element √2 of ℚ(√2). -/
def sqrtTwo : Q2 := ⟨0, 1⟩

/-- The element 1/√2 = √2/2 of ℚ(√2), used to undo the off-diagonal scaling. -/
def invSqrtTwo : Q2 := ⟨0, 1/2⟩

theorem invSqrtTwo_mul_sqrtTwo_mul (x : Q2) : invSqrtTwo * (sqrtTwo * x) = x := by
  cases x with
  | mk a b =>
    show Q2.mul invSqrtTwo (Q2.mul sqrtTwo ⟨a, b⟩) = _
    simp only [Q2.mul, invSqrtTwo, sqrtTwo, Q2.mk.injEq]
    constructor <;> ring

/-! ## Vectorizer (`sym_to_vec`) -/

/-- The triangular number `tri i = 0 + 1 + ⋯ + i = i·(i+1)/2`: the index in
the flattened lower triangle at which row `i` starts. -/
def tri : ℕ → ℕ
  | 0 => 0
  | n + 1 => tri n + (n + 1)

theorem two_mul_tri (n : ℕ) : 2 * tri n = n * (n + 1) := by
  induction n with
  | zero => rfl
  | succ m ih =>
    have hexp : (m + 1) * (m + 1 + 1) = m * (m + 1) + 2 * (m + 1) := by ring
    simp only [tri]
    omega

theorem tri_eq (n : ℕ) : tri n = n * (n + 1) / 2 := by
  have := two_mul_tri n
  omega

/-- Modelled from the spec: `nilearn.connectome.sym_to_vec` (the library
routine the notebook imports; its code is not under `src/`).  Flattens an
`R×R` symmetric matrix into the row-major lower triangle including the
diagonal, scaling off-diagonal entries by √2 and leaving diagonal entries
unscaled.  Matrices are total functions on ℕ; only indices below `R`
matter. -/
def sym_to_vec (R : ℕ) (M : ℕ → ℕ → Q2) : List Q2 :=
  (List.range R).flatMap fun i =>
    (List.range (i + 1)).map fun j =>
      if i = j then M i j else sqrtTwo * M i j

/-- Modelled from the spec: the inverse reconstruction
(`matrix_from_vector` in the spec's wording; not under `src/`): given the
coefficient vector and the region count `R`, rebuild the symmetric `R×R`
matrix, dividing off-diagonal entries by √2. -/
def matrix_from_vector (v : List Q2) (R : ℕ) : ℕ → ℕ → Q2 := fun i j =>
  if R ≤ i ∨ R ≤ j then 0
  else if i = j then v.getD (tri i + i) 0
  else if i < j then invSqrtTwo * v.getD (tri j + i) 0
  else invSqrtTwo * v.getD (tri i + j) 0

/-- The spec's name for the forward direction of the round trip. -/
def vector_from_matrix (M : ℕ → ℕ → Q2) (R : ℕ) : List Q2 := sym_to_vec R M

theorem length_sym_to_vec (R : ℕ) (M : ℕ → ℕ → Q2) :
    (sym_to_vec R M).length = tri R := by
  induction R with
  | zero => rfl
  | succ n ih =>
    rw [sym_to_vec, List.range_succ, List.flatMap_append, List.length_append]
    have h1 : ((List.range n).flatMap fun i =>
        (List.range (i + 1)).map fun j => if i = j then M i j else sqrtTwo * M i j) =
        sym_to_vec n M := rfl
    rw [h1, ih]
    simp [tri]

theorem tri_add_lt_tri (i j R : ℕ) (hj : j ≤ i) (hi : i < R) :
    tri i + j < tri R := by
  induction R with
  | zero => omega
  | succ n ih =>
    rcases Nat.lt_succ_iff_lt_or_eq.mp hi with h | h
    · have := ih h
      simp only [tri]; omega
    · subst h; simp only [tri]; omega

theorem getD_sym_to_vec (R : ℕ) (M : ℕ → ℕ → Q2) (i j : ℕ) (hj : j ≤ i) (hi : i < R) :
    (sym_to_vec R M).getD (tri i + j) 0 =
      if i = j then M i j else sqrtTwo * M i j := by
  induction R with
  | zero => omega
  | succ n ih =>
    have hsplit : sym_to_vec (n + 1) M =
        sym_to_vec n M ++ (List.range (n + 1)).map
          (fun j => if n = j then M n j else sqrtTwo * M n j) := by
      rw [sym_to_vec, List.range_succ, List.flatMap_append]
      simp [sym_to_vec, List.range_succ]
    rcases Nat.lt_succ_iff_lt_or_eq.mp hi with h | h
    · rw [hsplit, List.getD_append]
      · exact ih h
      · rw [length_sym_to_vec]; exact tri_add_lt_tri i j n hj h
    · subst h
      rw [hsplit, List.getD_append_right]
      · rw [length_sym_to_vec]
        have hlen : tri i + j - tri i = j := by omega
        rw [hlen]
        have hj' : j < ((List.range (i + 1)).map
            (fun j => if i = j then M i j else sqrtTwo * M i j)).length := by
          simp; omega
        rw [List.getD_eq_getElem _ _ hj']
        simp
      · rw [length_sym_to_vec]; omega

/-- C3: for every `R×R` symmetric input matrix, the Vectorizer returns the
lower triangle including the diagonal, with off-diagonal entries scaled by
√2 and diagonal entries unscaled, and the resulting vector has length
`R(R+1)/2`. -/
theorem C3_vectorizer_lower_triangle (R : ℕ) (M : ℕ → ℕ → Q2) :
    (sym_to_vec R M).length = R * (R + 1) / 2 ∧
    ∀ i j : ℕ, j ≤ i → i < R →
      (sym_to_vec R M).getD (tri i + j) 0 =
        if i = j then M i j else sqrtTwo * M i j := by
  refine ⟨?_, ?_⟩
  · rw [length_sym_to_vec, tri_eq]
  · intro i j hj hi
    exact getD_sym_to_vec R M i j hj hi

theorem C3_vectorizer_lower_triangle_witness :
    (sym_to_vec 3 (fun _ _ => (⟨1, 0⟩ : Q2))).length = 3 * (3 + 1) / 2 ∧
    (0 : ℕ) ≤ 1 ∧ (1 : ℕ) < 3 ∧
    (sym_to_vec 3 (fun _ _ => (⟨1, 0⟩ : Q2))).getD (tri 1 + 0) 0 =
      sqrtTwo * (⟨1, 0⟩ : Q2) := by
  refine ⟨(C3_vectorizer_lower_triangle 3 _).1, by decide, by decide, ?_⟩
  have h := (C3_vectorizer_lower_triangle 3 (fun _ _ => (⟨1, 0⟩ : Q2))).2 1 0
    (by decide) (by decide)
  simpa using h

/-- C2: for every symmetric `R×R` matrix `M`, reconstructing a matrix from
the vectorization (`matrix_from_vector` applied to `vector_from_matrix M`
with region count `R`) yields `M` exactly; over the exact carrier ℚ(√2)
the floating-point tolerance of the spec becomes exact equality. -/
theorem C2_vectorizer_round_trip (R : ℕ) (M : ℕ → ℕ → Q2)
    (hsym : ∀ i j, i < R → j < R → M i j = M j i)
    (i j : ℕ) (hi : i < R) (hj : j < R) :
    matrix_from_vector (vector_from_matrix M R) R i j = M i j := by
  unfold matrix_from_vector vector_from_matrix
  have hR : ¬(R ≤ i ∨ R ≤ j) := by omega
  rw [if_neg hR]
  by_cases hij : i = j
  · subst hij
    rw [if_pos rfl, getD_sym_to_vec R M i i le_rfl hi, if_pos rfl]
  · rw [if_neg hij]
    by_cases hlt : i < j
    · rw [if_pos hlt, getD_sym_to_vec R M j i (by omega) hj, if_neg (by omega),
        invSqrtTwo_mul_sqrtTwo_mul, hsym j i hj hi]
    · rw [if_neg hlt, getD_sym_to_vec R M i j (by omega) hi, if_neg hij,
        invSqrtTwo_mul_sqrtTwo_mul]

theorem C2_vectorizer_round_trip_witness :
    (∀ i j : ℕ, i < 2 → j < 2 →
      (fun _ _ => (⟨1, 0⟩ : Q2)) i j = (fun _ _ => (⟨1, 0⟩ : Q2)) j i) ∧
    matrix_from_vector (vector_from_matrix (fun _ _ => (⟨1, 0⟩ : Q2)) 2) 2 0 1 =
      (⟨1, 0⟩ : Q2) :=
  ⟨fun _ _ _ _ => rfl,
   C2_vectorizer_round_trip 2 (fun _ _ => (⟨1, 0⟩ : Q2)) (fun _ _ _ _ => rfl) 0 1
     (by decide) (by decide)⟩

/-! ## Cross validator: stratified shuffle split

The notebook builds `StratifiedShuffleSplit(n_splits=100, test_size=0.25,
random_state=0)` and iterates `cv.split(func_imgs, classes_binary)`.  The
splitter itself lives in scikit-learn, outside `src/`, so it is modelled
here from the spec: per class, the subject indices are pseudo-randomly
shuffled and a fixed 25% fraction (rounded up) is held out as the test
partition, the rest forming the train partition. -/

/-- Modelled from the spec: one step of a 32-bit linear congruential
generator, standing in for the numpy pseudo-random generator seeded by
`random_state`. -/
def lcg (s : ℕ) : ℕ := (1664525 * s + 1013904223) % 4294967296

/-- Pseudo-random sort key attached to element `a` under a given seed. -/
def shuffleKey (seed a : ℕ) : ℕ := lcg (seed + 2654435761 * a)

/-- Modelled from the spec: pseudo-random shuffling of an index list,
realized by ordering the elements by pseudo-random keys. -/
def shuffle (seed : ℕ) (l : List ℕ) : List ℕ :=
  List.insertionSort (fun a b => shuffleKey seed a ≤ shuffleKey seed b) l

theorem shuffle_perm (seed : ℕ) (l : List ℕ) : (shuffle seed l).Perm l :=
  List.perm_insertionSort _ l

theorem mem_shuffle {seed : ℕ} {l : List ℕ} {a : ℕ} : a ∈ shuffle seed l ↔ a ∈ l :=
  (shuffle_perm seed l).mem_iff

theorem shuffle_nodup {seed : ℕ} {l : List ℕ} (h : l.Nodup) : (shuffle seed l).Nodup :=
  ((shuffle_perm seed l).nodup_iff).mpr h

/-- The indices of cohort members carrying class label `c`. -/
def classIndices (y : List ℕ) (c : ℕ) : List ℕ :=
  (List.range y.length).filter fun i => y.getD i 0 = c

theorem mem_classIndices {y : List ℕ} {c i : ℕ} :
    i ∈ classIndices y c ↔ i < y.length ∧ y.getD i 0 = c := by
  simp [classIndices, List.mem_filter, List.mem_range]

theorem nodup_classIndices (y : List ℕ) (c : ℕ) : (classIndices y c).Nodup :=
  (List.nodup_range _).filter _

/-- Modelled from the spec: the held-out test size for a class of `m`
members under `test_size=0.25`, i.e. `m` minus the train size `⌊3m/4⌋`. -/
def testCount (m : ℕ) : ℕ := m - m * 3 / 4

/-- Modelled from the spec: the per-class part of one stratified split —
shuffle the class's indices, hold out `testCount` of them as test, the
rest as train.  Returns `(train, test)`. -/
def classSplit (seed : ℕ) (y : List ℕ) (c : ℕ) : List ℕ × List ℕ :=
  let idx := shuffle (lcg (seed + c)) (classIndices y c)
  (idx.drop (testCount idx.length), idx.take (testCount idx.length))

/-- Modelled from the spec: one stratified random split `(train, test)` of
the cohort indexed by `y`: the union over classes of the per-class
splits. -/
def splitOne (seed : ℕ) (y : List ℕ) : List ℕ × List ℕ :=
  ((y.dedup.map fun c => (classSplit seed y c).1).flatten,
   (y.dedup.map fun c => (classSplit seed y c).2).flatten)

/-- Seed used for the `k`-th of the `N` generated splits. -/
def seedFor (seed k : ℕ) : ℕ := lcg (seed + k)

/-- Modelled from the spec: the sequence of `N` stratified random splits
generated by the seeded cross validator. -/
def splits (seed N : ℕ) (y : List ℕ) : List (List ℕ × List ℕ) :=
  (List.range N).map fun k => splitOne (seedFor seed k) y

theorem mem_splitOne_train {seed : ℕ} {y : List ℕ} {i : ℕ} :
    i ∈ (splitOne seed y).1 ↔ ∃ c ∈ y.dedup, i ∈ (classSplit seed y c).1 := by
  simp [splitOne, List.mem_flatten]

theorem mem_splitOne_test {seed : ℕ} {y : List ℕ} {i : ℕ} :
    i ∈ (splitOne seed y).2 ↔ ∃ c ∈ y.dedup, i ∈ (classSplit seed y c).2 := by
  simp [splitOne, List.mem_flatten]

theorem classSplit_label {seed : ℕ} {y : List ℕ} {c i : ℕ}
    (h : i ∈ (classSplit seed y c).1 ∨ i ∈ (classSplit seed y c).2) :
    i < y.length ∧ y.getD i 0 = c := by
  have hmem : i ∈ classIndices y c := by
    rcases h with h | h
    · exact mem_shuffle.mp (List.mem_of_mem_drop h)
    · exact mem_shuffle.mp (List.mem_of_mem_take h)
  exact mem_classIndices.mp hmem

theorem splitOne_cover {seed : ℕ} {y : List ℕ} {i : ℕ} (h : i < y.length) :
    i ∈ (splitOne seed y).1 ∨ i ∈ (splitOne seed y).2 := by
  have hcy : y.getD i 0 ∈ y := by
    rw [List.getD_eq_getElem y 0 h]
    exact List.getElem_mem h
  have hcd : y.getD i 0 ∈ y.dedup := List.mem_dedup.mpr hcy
  have hidx : i ∈ classIndices y (y.getD i 0) := mem_classIndices.mpr ⟨h, rfl⟩
  have hsh : i ∈ shuffle (lcg (seed + y.getD i 0)) (classIndices y (y.getD i 0)) :=
    mem_shuffle.mpr hidx
  rw [← List.take_append_drop
    (testCount (shuffle (lcg (seed + y.getD i 0)) (classIndices y (y.getD i 0))).length)
    (shuffle (lcg (seed + y.getD i 0)) (classIndices y (y.getD i 0)))] at hsh
  rcases List.mem_append.mp hsh with h1 | h1
  · right
    exact mem_splitOne_test.mpr ⟨y.getD i 0, hcd, h1⟩
  · left
    exact mem_splitOne_train.mpr ⟨y.getD i 0, hcd, h1⟩

theorem splitOne_disjoint {seed : ℕ} {y : List ℕ} {i : ℕ} :
    ¬(i ∈ (splitOne seed y).1 ∧ i ∈ (splitOne seed y).2) := by
  rintro ⟨h1, h2⟩
  obtain ⟨c, hc, hin1⟩ := mem_splitOne_train.mp h1
  obtain ⟨c', hc', hin2⟩ := mem_splitOne_test.mp h2
  have e1 := (classSplit_label (Or.inl hin1)).2
  have e2 := (classSplit_label (Or.inr hin2)).2
  have hcc : c = c' := by rw [← e1, ← e2]
  subst hcc
  have hnd : (shuffle (lcg (seed + c)) (classIndices y c)).Nodup :=
    shuffle_nodup (nodup_classIndices y c)
  exact (List.disjoint_take_drop hnd le_rfl) hin2 hin1

theorem splitOne_union (seed : ℕ) (y : List ℕ) :
    (splitOne seed y).1.toFinset ∪ (splitOne seed y).2.toFinset =
      Finset.range y.length := by
  ext i
  simp only [Finset.mem_union, List.mem_toFinset, Finset.mem_range]
  constructor
  · rintro (h | h)
    · obtain ⟨c, _, hin⟩ := mem_splitOne_train.mp h
      exact (classSplit_label (Or.inl hin)).1
    · obtain ⟨c, _, hin⟩ := mem_splitOne_test.mp h
      exact (classSplit_label (Or.inr hin)).1
  · exact splitOne_cover

/-- C4: for every split generated by the cross validator over a cohort,
the train and test index sets are disjoint and their union has size equal
to the cohort size. -/
theorem C4_split_partition (seed N : ℕ) (y : List ℕ) (p : List ℕ × List ℕ)
    (hp : p ∈ splits seed N y) :
    p.1.toFinset ∩ p.2.toFinset = ∅ ∧
    (p.1.toFinset ∪ p.2.toFinset).card = y.length := by
  obtain ⟨k, _, hkp⟩ := List.mem_map.mp hp
  subst hkp
  constructor
  · ext i
    simp only [Finset.mem_inter, List.mem_toFinset, Finset.not_mem_empty, iff_false]
    exact fun h => splitOne_disjoint h
  · rw [splitOne_union, Finset.card_range]

theorem C4_split_partition_witness :
    splitOne (seedFor 0 0) [0, 1, 0, 1] ∈ splits 0 1 [0, 1, 0, 1] ∧
    ((splitOne (seedFor 0 0) [0, 1, 0, 1]).1.toFinset ∩
        (splitOne (seedFor 0 0) [0, 1, 0, 1]).2.toFinset = ∅ ∧
      ((splitOne (seedFor 0 0) [0, 1, 0, 1]).1.toFinset ∪
        (splitOne (seedFor 0 0) [0, 1, 0, 1]).2.toFinset).card = 4) :=
  ⟨by decide, C4_split_partition 0 1 [0, 1, 0, 1] _ (by decide)⟩

/-! ## The cross-validated classifier -/

/-- The spec's error taxonomy (§7). -/
inductive PipelineError
  | dataShapeError
  | confoundAlignmentError
  | singularCovarianceError
  | insufficientClassCoverageError
deriving DecidableEq, Repr

/-- Modelled from the spec: the effective seed of the pseudo-random
generator.  With `random_state = some s` (the notebook fixes
`random_state=0`) the seed is `s`; with `random_state = none` the
generator is seeded from ambient entropy. -/
def effectiveSeed : Option ℕ → ℕ → ℕ
  | some s, _ => s
  | none, entropy => entropy

/-- The cross validator object built by the notebook:
`StratifiedShuffleSplit(n_splits=n_iter, test_size=0.25, random_state=0)`. -/
structure StratShuffleSplit where
  n_splits : ℕ
  random_state : Option ℕ
deriving DecidableEq, Repr

/-- Modelled from the spec: `cv.split(X, y)` — generate `n_splits` fresh
stratified splits of the cohort; reproducible whenever `random_state` is
fixed. -/
def cvSplit (cv : StratShuffleSplit) (entropy : ℕ) (y : List ℕ) :
    List (List ℕ × List ℕ) :=
  splits (effectiveSeed cv.random_state entropy) cv.n_splits y

/-- The linear support-vector classifier is an excluded external
collaborator (spec §1); it is modelled as a black-box function from the
training features and labels to a decision function on feature vectors. -/
abbrev Classifier := List (List ℚ) → List ℕ → List ℚ → ℚ

/-- Contribution of one (positive, negative) test pair to the ROC-AUC:
`1` if the positive decision value is larger, `1/2` on ties, else `0`. -/
def pairVal (a b : ℚ) : ℚ := if b < a then 1 else if a = b then 1/2 else 0

/-- The positive-class members of a test partition. -/
def posOf (y : List ℕ) (test : List ℕ) : List ℕ := test.filter fun i => y.getD i 0 = 1

/-- The negative-class members of a test partition. -/
def negOf (y : List ℕ) (test : List ℕ) : List ℕ := test.filter fun i => y.getD i 0 ≠ 1

/-- Modelled from the spec: the ROC-AUC score of decision values `d` on
the test indices, in its Mann-Whitney formulation: the fraction of
(positive, negative) test pairs ranked correctly, ties counting 1/2. -/
def aucScore (d : ℕ → ℚ) (y : List ℕ) (test : List ℕ) : ℚ :=
  if (posOf y test).length * (negOf y test).length = 0 then 0
  else
    ((posOf y test).map fun i => ((negOf y test).map fun j => pairVal (d i) (d j)).sum).sum /
      (((posOf y test).length : ℚ) * ((negOf y test).length : ℚ))

/-- Modelled from the spec: every class present in the cohort must appear
in the given partition of a split. -/
def coverageOk (y : List ℕ) (part : List ℕ) : Bool :=
  y.dedup.all fun c => part.any fun i => y.getD i 0 = c

/-- Modelled from the spec: scoring of one split in the notebook's
`cross_val_score` loop — fit the classifier on the train partition and
score ROC-AUC on the test partition, failing with
`InsufficientClassCoverageError` when a class is entirely absent from the
train or the test partition. -/
def scoreSplit (clf : Classifier) (X : List (List ℚ)) (y : List ℕ)
    (s : List ℕ × List ℕ) : Except PipelineError ℚ :=
  if coverageOk y s.1 && coverageOk y s.2 then
    Except.ok (aucScore
      (fun i => clf (s.1.map fun k => X.getD k []) (s.1.map fun k => y.getD k 0)
        (X.getD i []))
      y s.2)
  else
    Except.error PipelineError.insufficientClassCoverageError

/-- The notebook's scoring loop: one score per split, gathered in order;
the first failing split aborts the run. -/
def collectScores (clf : Classifier) (X : List (List ℚ)) (y : List ℕ) :
    List (List ℕ × List ℕ) → Except PipelineError (List ℚ)
  | [] => Except.ok []
  | s :: rest =>
    match scoreSplit clf X y s with
    | Except.error e => Except.error e
    | Except.ok q =>
      match collectScores clf X y rest with
      | Except.error e => Except.error e
      | Except.ok qs => Except.ok (q :: qs)

/-- The Cross-Validated Classifier: generate the splits from the seeded
cross validator and score each; returns the generated split sequence and
either the score sequence or the aborting error. -/
def crossValidatedClassifier (clf : Classifier) (X : List (List ℚ)) (y : List ℕ)
    (cv : StratShuffleSplit) (entropy : ℕ) :
    List (List ℕ × List ℕ) × Except PipelineError (List ℚ) :=
  (cvSplit cv entropy y, collectScores clf X y (cvSplit cv entropy y))

def mean (l : List ℚ) : ℚ := l.sum / l.length

/-- The spec's standard deviation is reported through its square, the
variance, to stay inside the exact rational carrier. -/
def variance (l : List ℚ) : ℚ := ((l.map fun x => (x - mean l) ^ 2).sum) / l.length

/-- The notebook's final report: mean and deviation (as variance) of the
collected scores. -/
def classifierReport (clf : Classifier) (X : List (List ℚ)) (y : List ℕ)
    (cv : StratShuffleSplit) (entropy : ℕ) : Except PipelineError (ℚ × ℚ) :=
  (crossValidatedClassifier clf X y cv entropy).2.map fun l => (mean l, variance l)

/-- C1: with the same fixed random seed, two independent runs of the
Cross-Validated Classifier over the same `(X, y, N)` produce the identical
sequence of `N` (train, test) splits and the identical sequence of
ROC-AUC scores — whatever ambient entropy each run starts from. -/
theorem C1_deterministic_runs (clf : Classifier) (X : List (List ℚ)) (y : List ℕ)
    (N s e1 e2 : ℕ) :
    crossValidatedClassifier clf X y ⟨N, some s⟩ e1 =
      crossValidatedClassifier clf X y ⟨N, some s⟩ e2 := rfl

theorem list_sum_nonneg (l : List ℚ) (h : ∀ x ∈ l, 0 ≤ x) : 0 ≤ l.sum := by
  induction l with
  | nil => simp
  | cons a t ih =>
    simp only [List.sum_cons]
    have h1 := h a (List.mem_cons_self a t)
    have h2 := ih fun x hx => h x (List.mem_cons_of_mem a hx)
    linarith

theorem list_sum_le_length_mul (l : List ℚ) (c : ℚ) (h : ∀ x ∈ l, x ≤ c) :
    l.sum ≤ (l.length : ℚ) * c := by
  induction l with
  | nil => simp
  | cons a t ih =>
    simp only [List.sum_cons, List.length_cons]
    have h1 := h a (List.mem_cons_self a t)
    have h2 := ih fun x hx => h x (List.mem_cons_of_mem a hx)
    have h3 : ((t.length : ℚ) + 1) * c = (t.length : ℚ) * c + c := by ring
    push_cast
    rw [h3]
    linarith

theorem pairVal_nonneg (a b : ℚ) : 0 ≤ pairVal a b := by
  unfold pairVal
  split
  · norm_num
  · split <;> norm_num

theorem pairVal_le_one (a b : ℚ) : pairVal a b ≤ 1 := by
  unfold pairVal
  split
  · norm_num
  · split <;> norm_num

theorem aucScore_mem_unit (d : ℕ → ℚ) (y : List ℕ) (test : List ℕ) :
    0 ≤ aucScore d y test ∧ aucScore d y test ≤ 1 := by
  unfold aucScore
  set pos := posOf y test with hpos
  set neg := negOf y test with hneg
  by_cases h : pos.length * neg.length = 0
  · simp [h]
  · simp only [if_neg h]
    obtain ⟨ha, hb⟩ := Nat.mul_ne_zero_iff.mp h
    have hden : (0 : ℚ) < (pos.length : ℚ) * (neg.length : ℚ) := by
      have h1 : (0 : ℚ) < (pos.length : ℚ) := by exact_mod_cast Nat.pos_of_ne_zero ha
      have h2 : (0 : ℚ) < (neg.length : ℚ) := by exact_mod_cast Nat.pos_of_ne_zero hb
      exact mul_pos h1 h2
    have hinner_nonneg : ∀ i : ℕ, 0 ≤ (neg.map fun j => pairVal (d i) (d j)).sum := by
      intro i
      apply list_sum_nonneg
      intro x hx
      obtain ⟨j, _, rfl⟩ := List.mem_map.mp hx
      exact pairVal_nonneg _ _
    have hinner_le : ∀ i : ℕ, (neg.map fun j => pairVal (d i) (d j)).sum ≤ (neg.length : ℚ) := by
      intro i
      have hb1 := list_sum_le_length_mul (neg.map fun j => pairVal (d i) (d j)) 1 ?_
      · simpa using hb1
      · intro x hx
        obtain ⟨j, _, rfl⟩ := List.mem_map.mp hx
        exact pairVal_le_one _ _
    have houter_nonneg :
        0 ≤ (pos.map fun i => (neg.map fun j => pairVal (d i) (d j)).sum).sum := by
      apply list_sum_nonneg
      intro x hx
      obtain ⟨i, _, rfl⟩ := List.mem_map.mp hx
      exact hinner_nonneg i
    have houter_le :
        (pos.map fun i => (neg.map fun j => pairVal (d i) (d j)).sum).sum ≤
          (pos.length : ℚ) * (neg.length : ℚ) := by
      have hb2 := list_sum_le_length_mul
        (pos.map fun i => (neg.map fun j => pairVal (d i) (d j)).sum) (neg.length : ℚ) ?_
      · simpa using hb2
      · intro x hx
        obtain ⟨i, _, rfl⟩ := List.mem_map.mp hx
        exact hinner_le i
    constructor
    · exact div_nonneg houter_nonneg hden.le
    · rw [div_le_one hden]
      exact houter_le

theorem collectScores_ok_length (clf : Classifier) (X : List (List ℚ)) (y : List ℕ) :
    ∀ (l : List (List ℕ × List ℕ)) (qs : List ℚ),
      collectScores clf X y l = Except.ok qs → qs.length = l.length := by
  intro l
  induction l with
  | nil =>
    intro qs h
    simp only [collectScores, Except.ok.injEq] at h
    rw [← h]
    rfl
  | cons s rest ih =>
    intro qs h
    simp only [collectScores] at h
    cases hs : scoreSplit clf X y s with
    | error e => rw [hs] at h; cases h
    | ok q =>
      rw [hs] at h
      cases hr : collectScores clf X y rest with
      | error e => rw [hr] at h; cases h
      | ok qs' =>
        rw [hr] at h
        simp only [Except.ok.injEq] at h
        rw [← h]
        simp [ih qs' hr]

theorem collectScores_ok_mem (clf : Classifier) (X : List (List ℚ)) (y : List ℕ) :
    ∀ (l : List (List ℕ × List ℕ)) (qs : List ℚ),
      collectScores clf X y l = Except.ok qs →
      ∀ q ∈ qs, ∃ s ∈ l, scoreSplit clf X y s = Except.ok q := by
  intro l
  induction l with
  | nil =>
    intro qs h q hq
    simp only [collectScores, Except.ok.injEq] at h
    rw [← h] at hq
    cases hq
  | cons s rest ih =>
    intro qs h q hq
    simp only [collectScores] at h
    cases hs : scoreSplit clf X y s with
    | error e => rw [hs] at h; cases h
    | ok q0 =>
      rw [hs] at h
      cases hr : collectScores clf X y rest with
      | error e => rw [hr] at h; cases h
      | ok qs' =>
        rw [hr] at h
        simp only [Except.ok.injEq] at h
        rw [← h] at hq
        rcases List.mem_cons.mp hq with rfl | hq'
        · exact ⟨s, List.mem_cons_self s rest, hs⟩
        · obtain ⟨s', hs', hsc⟩ := ih qs' hr q hq'
          exact ⟨s', List.mem_cons_of_mem s hs', hsc⟩

theorem scoreSplit_ok_auc {clf : Classifier} {X : List (List ℚ)} {y : List ℕ}
    {s : List ℕ × List ℕ} {q : ℚ} (h : scoreSplit clf X y s = Except.ok q) :
    0 ≤ q ∧ q ≤ 1 := by
  unfold scoreSplit at h
  split at h
  · simp only [Except.ok.injEq] at h
    rw [← h]
    exact aucScore_mem_unit _ _ _
  · cases h

/-- C5: a run of the Cross-Validated Classifier with `N` splits that
raises no error produces exactly `N` scores, each in `[0, 1]`, and the
report is the mean and deviation (as variance) of those scores. -/
theorem C5_scores_wellformed (clf : Classifier) (X : List (List ℚ)) (y : List ℕ)
    (cv : StratShuffleSplit) (entropy : ℕ) (scores : List ℚ)
    (h : (crossValidatedClassifier clf X y cv entropy).2 = Except.ok scores) :
    scores.length = cv.n_splits ∧
    (∀ q ∈ scores, 0 ≤ q ∧ q ≤ 1) ∧
    classifierReport clf X y cv entropy = Except.ok (mean scores, variance scores) := by
  refine ⟨?_, ?_, ?_⟩
  · have hl := collectScores_ok_length clf X y (cvSplit cv entropy y) scores h
    rw [hl]
    simp [cvSplit, splits]
  · intro q hq
    obtain ⟨s, _, hsc⟩ := collectScores_ok_mem clf X y (cvSplit cv entropy y) scores h q hq
    exact scoreSplit_ok_auc hsc
  · unfold classifierReport
    rw [h]
    rfl

theorem C5_scores_wellformed_witness :
    (crossValidatedClassifier (fun _ _ _ => 0) [] [0, 1, 0, 1] ⟨1, some 0⟩ 0).2 =
      Except.ok [1/2] ∧
    (([1/2] : List ℚ).length = 1 ∧
     (∀ q ∈ ([1/2] : List ℚ), 0 ≤ q ∧ q ≤ 1) ∧
     classifierReport (fun _ _ _ => 0) [] [0, 1, 0, 1] ⟨1, some 0⟩ 0 =
       Except.ok (mean [1/2], variance [1/2])) := by
  have h : (crossValidatedClassifier (fun _ _ _ => 0) [] [0, 1, 0, 1] ⟨1, some 0⟩ 0).2 =
      Except.ok [1/2] := by with_unfolding_all rfl
  exact ⟨h, C5_scores_wellformed (fun _ _ _ => 0) [] [0, 1, 0, 1] ⟨1, some 0⟩ 0 [1/2] h⟩

theorem scoreSplit_error_eq {clf : Classifier} {X : List (List ℚ)} {y : List ℕ}
    {s : List ℕ × List ℕ} {e : PipelineError}
    (h : scoreSplit clf X y s = Except.error e) :
    e = PipelineError.insufficientClassCoverageError := by
  unfold scoreSplit at h
  split at h
  · cases h
  · simp only [Except.error.injEq] at h
    exact h.symm

theorem collectScores_error_of_cov (clf : Classifier) (X : List (List ℚ)) (y : List ℕ) :
    ∀ l : List (List ℕ × List ℕ),
      (∃ s ∈ l, coverageOk y s.1 = false ∨ coverageOk y s.2 = false) →
      collectScores clf X y l =
        Except.error PipelineError.insufficientClassCoverageError := by
  intro l
  induction l with
  | nil =>
    rintro ⟨s, hs, _⟩
    cases hs
  | cons a t ih =>
    rintro ⟨s, hs, hcov⟩
    rcases List.mem_cons.mp hs with heq | hst
    · subst heq
      have ha : scoreSplit clf X y s =
          Except.error PipelineError.insufficientClassCoverageError := by
        unfold scoreSplit
        rcases hcov with h | h
        · rw [h]; simp
        · rw [h]; simp
      simp only [collectScores, ha]
    · have ht := ih ⟨s, hst, hcov⟩
      cases ha : scoreSplit clf X y a with
      | error e =>
        have he := scoreSplit_error_eq ha
        simp only [collectScores, ha, he]
      | ok q =>
        simp only [collectScores, ha, ht]

theorem classSplit_train_nil {seed : ℕ} {y : List ℕ} {c i0 : ℕ}
    (h : classIndices y c = [i0]) : (classSplit seed y c).1 = [] := by
  simp only [classSplit]
  rw [h]
  show List.drop (testCount 1) [i0] = []
  rfl

/-- With a single-member class, the train partition of every generated
split misses that class: the 25%-rounded-up test fraction takes the lone
member, leaving the train side without it. -/
theorem single_member_train_missing {seed : ℕ} {y : List ℕ} {c i0 : ℕ}
    (h : classIndices y c = [i0]) :
    coverageOk y (splitOne seed y).1 = false := by
  have hc_mem : c ∈ y.dedup := by
    have hi : i0 ∈ classIndices y c := by
      rw [h]
      exact List.mem_singleton_self i0
    have hm := mem_classIndices.mp hi
    apply List.mem_dedup.mpr
    rw [← hm.2, List.getD_eq_getElem y 0 hm.1]
    exact List.getElem_mem hm.1
  simp only [coverageOk, List.all_eq_false]
  refine ⟨c, hc_mem, ?_⟩
  rw [List.any_eq_true]
  rintro ⟨i, hi_train, hlab⟩
  have hlab' : y.getD i 0 = c := by simpa using hlab
  obtain ⟨c', _, hin⟩ := mem_splitOne_train.mp hi_train
  have hl := (classSplit_label (Or.inl hin)).2
  have hc'c : c' = c := hl.symm.trans hlab'
  subst hc'c
  rw [classSplit_train_nil h] at hin
  exact (List.not_mem_nil i) hin

/-- A cohort in which some class has exactly one member satisfies the
coverage-failure antecedent at the very first generated split. -/
theorem single_member_cov_antecedent (cv : StratShuffleSplit) (entropy : ℕ)
    {y : List ℕ} {c i0 : ℕ} (h : classIndices y c = [i0]) (hN : 1 ≤ cv.n_splits) :
    ∃ s ∈ cvSplit cv entropy y,
      coverageOk y s.1 = false ∨ coverageOk y s.2 = false := by
  refine ⟨splitOne (seedFor (effectiveSeed cv.random_state entropy) 0) y, ?_,
    Or.inl (single_member_train_missing h)⟩
  simp only [cvSplit, splits, List.mem_map]
  exact ⟨0, List.mem_range.mpr (by omega), rfl⟩

/-- C8: if in some generated split one of the classes is entirely absent
from the training or the test partition (for example when a class has a
single member under the 75/25 stratified split), the Cross-Validated
Classifier fails with `InsufficientClassCoverageError` rather than
proceeding silently. -/
theorem C8_insufficient_class_coverage (clf : Classifier) (X : List (List ℚ))
    (y : List ℕ) (cv : StratShuffleSplit) (entropy : ℕ)
    (h : ∃ s ∈ cvSplit cv entropy y,
      coverageOk y s.1 = false ∨ coverageOk y s.2 = false) :
    (crossValidatedClassifier clf X y cv entropy).2 =
      Except.error PipelineError.insufficientClassCoverageError :=
  collectScores_error_of_cov clf X y (cvSplit cv entropy y) h

theorem C8_insufficient_class_coverage_witness :
    (∃ s ∈ cvSplit ⟨1, some 0⟩ 0 [0, 1, 1, 1],
      coverageOk [0, 1, 1, 1] s.1 = false ∨ coverageOk [0, 1, 1, 1] s.2 = false) ∧
    (crossValidatedClassifier (fun _ _ _ => 0) [] [0, 1, 1, 1] ⟨1, some 0⟩ 0).2 =
      Except.error PipelineError.insufficientClassCoverageError :=
  ⟨by decide,
   C8_insufficient_class_coverage (fun _ _ _ => 0) [] [0, 1, 1, 1] ⟨1, some 0⟩ 0
     (by decide)⟩

/-! ## The notebook's two experiments (correlation vs tangent) -/

/-- The cross validator object the notebook constructs once:
`StratifiedShuffleSplit(n_splits=n_iter, test_size=0.25, random_state=0)`
with `n_iter = 100`. -/
def notebookCv : StratShuffleSplit := ⟨100, some 0⟩

/-- The notebook's prediction section: score feature matrix `X1`
(correlation coefficients) over `iter_for_prediction = cv.split(...)` and
feature matrix `X2` (tangent coefficients) over a second call
`iter_for_prediction2 = cv.split(...)` of the same cross validator. -/
def notebookPrediction (clf : Classifier) (X1 X2 : List (List ℚ)) (y : List ℕ)
    (e1 e2 : ℕ) :
    Except PipelineError (List ℚ) × Except PipelineError (List ℚ) :=
  (collectScores clf X1 y (cvSplit notebookCv e1 y),
   collectScores clf X2 y (cvSplit notebookCv e2 y))

/-- C10: within one pipeline run, the correlation experiment and the
tangent experiment are scored over the identical sequence of (train,
test) splits: re-splitting the same seeded cross validator on the same
labels yields the same split sequence whatever entropy each call draws,
so with equal feature matrices the two score sequences coincide — any
difference is attributable to the measure kind alone. -/
theorem C10_common_splits (clf : Classifier) (X1 X2 : List (List ℚ))
    (y : List ℕ) (e1 e2 : ℕ) :
    cvSplit notebookCv e1 y = cvSplit notebookCv e2 y ∧
    notebookPrediction clf X1 X2 y e1 e2 =
      (collectScores clf X1 y (splits 0 100 y),
       collectScores clf X2 y (splits 0 100 y)) ∧
    (notebookPrediction clf X1 X1 y e1 e2).1 =
      (notebookPrediction clf X1 X1 y e1 e2).2 :=
  ⟨rfl, rfl, rfl⟩

/-! ## Connectivity estimation

`ConnectivityMeasure` and the Ledoit-Wolf estimator live in nilearn and
scikit-learn, outside `src/`; they are modelled from the spec over exact
rational matrices.  The transcendental pieces of the tangent-space
embedding (matrix square root, logarithm, exponential, and the iterative
Riemannian mean) are modelled as truncated power series — polynomials in
their symmetric argument — which preserves exactly the structure the
claims are about. -/

abbrev Mat (r : ℕ) := Matrix (Fin r) (Fin r) ℚ

/-- A subject's extracted timeseries: `t` timepoints × `r` regions. -/
structure TimeSeries (r : ℕ) where
  t : ℕ
  x : Matrix (Fin t) (Fin r) ℚ

/-- Modelled from the spec: the empirical covariance of a zero-centered
timeseries (`assume_centered=True`), `Xᵀ X / t`. -/
def empCov {r : ℕ} (s : TimeSeries r) : Mat r :=
  (1 / (s.t : ℚ)) • (Matrix.transpose s.x * s.x)

/-- Sum of squared entries (squared Frobenius norm). -/
def frobSq {r : ℕ} (A : Mat r) : ℚ := ∑ i, ∑ j, (A i j) ^ 2

/-- The rank-one outer product of timepoint `k`'s region vector. -/
def rowOuter {r : ℕ} (s : TimeSeries r) (k : Fin s.t) : Mat r :=
  Matrix.of fun i j => s.x k i * s.x k j

/-- Modelled from the spec: the Ledoit-Wolf shrinkage covariance
estimator with `assume_centered=True` — the empirical covariance shrunk
towards a scaled identity by the data-driven coefficient `α = β²/δ²`. -/
def ledoitWolf {r : ℕ} (s : TimeSeries r) : Mat r :=
  let S := empCov s
  let mu := Matrix.trace S / r
  let d2 := frobSq (S - mu • (1 : Mat r)) / r
  let b2 := (∑ k : Fin s.t, frobSq (rowOuter s k - S)) / ((s.t : ℚ) ^ 2 * r)
  let beta2 := min b2 d2
  let alpha := if d2 = 0 then 0 else beta2 / d2
  (1 - alpha) • S + (alpha * mu) • (1 : Mat r)

/-- Modelled from the spec: fixed-step Newton iteration for the
floating-point square root used when normalizing covariance to
correlation. -/
def sqrtNewton : ℕ → ℚ → ℚ → ℚ
  | 0, _, g => g
  | k + 1, a, g => if g = 0 then 0 else sqrtNewton k a ((g + a / g) / 2)

/-- Modelled from the spec: floating-point square root on ℚ. -/
def sqrtApprox (a : ℚ) : ℚ := if a ≤ 0 then 0 else sqrtNewton 8 a (max a 1)

/-- Modelled from the spec: normalize a covariance matrix to the Pearson
correlation matrix, `C i j / (√(C i i) · √(C j j))`. -/
def covToCorr {r : ℕ} (A : Mat r) : Mat r :=
  Matrix.of fun i j => A i j / (sqrtApprox (A i i) * sqrtApprox (A j j))

/-- Evaluation of the polynomial with coefficient list `cs` at a square
matrix. -/
def polyEval {r : ℕ} (cs : List ℚ) (A : Mat r) : Mat r :=
  ((List.range cs.length).map fun k => cs.getD k 0 • A ^ k).sum

/-- Coefficients of the binomial series `(1+y)^a`:
`c₀ = 1`, `c_{k+1} = c_k (a − k)/(k+1)`. -/
def binomCoeff (a : ℚ) : ℕ → ℚ
  | 0 => 1
  | k + 1 => binomCoeff a k * (a - k) / (k + 1)

/-- Truncation depth of the modelled matrix power series. -/
def seriesDepth : ℕ := 6

/-- Modelled from the spec: the matrix inverse square root (whitening at
the reference covariance), as the truncated binomial series of
`(I + (A − I))^{-1/2}` — a polynomial in `A`. -/
def matInvSqrt {r : ℕ} (A : Mat r) : Mat r :=
  polyEval ((List.range seriesDepth).map (binomCoeff (-(1/2)))) (A - 1)

/-- Modelled from the spec: the matrix square root, truncated binomial
series of `(I + (A − I))^{1/2}`. -/
def matSqrt {r : ℕ} (A : Mat r) : Mat r :=
  polyEval ((List.range seriesDepth).map (binomCoeff (1/2))) (A - 1)

/-- Coefficients of the Mercator series of `log(1+y)`. -/
def logCoeff : ℕ → ℚ
  | 0 => 0
  | k + 1 => (-1) ^ k / (k + 1)

/-- Modelled from the spec: the matrix logarithm, truncated Mercator
series of `log(I + (A − I))`. -/
def matLog {r : ℕ} (A : Mat r) : Mat r :=
  polyEval ((List.range seriesDepth).map logCoeff) (A - 1)

/-- Modelled from the spec: the matrix exponential, truncated Taylor
series. -/
def matExp {r : ℕ} (A : Mat r) : Mat r :=
  polyEval ((List.range seriesDepth).map fun k => 1 / (Nat.factorial k : ℚ)) A

/-- Euclidean mean of a list of matrices. -/
def matListMean {r : ℕ} (ms : List (Mat r)) : Mat r :=
  (1 / (ms.length : ℚ)) • ms.sum

/-- Modelled from the spec: one fixed-point step of the Riemannian mean
iteration, `G ← G^{1/2} exp(mean_s log(G^{-1/2} C_s G^{-1/2})) G^{1/2}`. -/
def gmeanStep {r : ℕ} (ms : List (Mat r)) (G : Mat r) : Mat r :=
  matSqrt G *
    matExp (matListMean (ms.map fun C => matLog (matInvSqrt G * C * matInvSqrt G))) *
    matSqrt G

/-- Number of fixed-point steps in the modelled Riemannian mean. -/
def gmeanIters : ℕ := 2

/-- Modelled from the spec: the geometric mean covariance across the
cohort (Riemannian mean), as a fixed number of fixed-point steps started
from the Euclidean mean. -/
def geometricMean {r : ℕ} (ms : List (Mat r)) : Mat r :=
  (gmeanStep ms)^[gmeanIters] (matListMean ms)

/-- The measure kind selected in the notebook's two experiments. -/
inductive MeasureKind
  | correlation
  | tangent
deriving DecidableEq, Repr

/-- Output of the Connectivity Estimator: one matrix per subject, plus —
for kind `tangent` only — the population mean reference matrix
(`connectivity.mean_` in the notebook). -/
structure ConnOutput (r : ℕ) where
  matrices : List (Mat r)
  mean_ : Option (Mat r)

/-- Modelled from the spec: `ConnectivityMeasure(kind, cov_estimator=
LedoitWolf(assume_centered=True)).fit_transform(subjects_timeseries)` —
per-subject correlation matrices for kind `correlation`; for kind
`tangent`, each subject's covariance whitened at the geometric mean and
mapped through the matrix logarithm, with the geometric mean exposed as
the `mean_` side output. -/
def connectivityMeasure {r : ℕ} (kind : MeasureKind)
    (subjects : List (TimeSeries r)) : ConnOutput r :=
  let covs := subjects.map ledoitWolf
  match kind with
  | .correlation => ⟨covs.map covToCorr, none⟩
  | .tangent =>
    let G := geometricMean covs
    ⟨covs.map fun C => matLog (matInvSqrt G * C * matInvSqrt G), some G⟩

theorem isSymm_list_sum {r : ℕ} (l : List (Mat r)) (h : ∀ A ∈ l, A.IsSymm) :
    l.sum.IsSymm := by
  induction l with
  | nil =>
    simp only [List.sum_nil]
    exact Matrix.isSymm_zero
  | cons a t ih =>
    simp only [List.sum_cons]
    exact (h a (List.mem_cons_self a t)).add
      (ih fun A hA => h A (List.mem_cons_of_mem a hA))

theorem isSymm_polyEval {r : ℕ} (cs : List ℚ) {A : Mat r} (h : A.IsSymm) :
    (polyEval cs A).IsSymm := by
  apply isSymm_list_sum
  intro B hB
  obtain ⟨k, _, rfl⟩ := List.mem_map.mp hB
  exact (h.pow k).smul _

theorem isSymm_empCov {r : ℕ} (s : TimeSeries r) : (empCov s).IsSymm := by
  unfold Matrix.IsSymm empCov
  rw [Matrix.transpose_smul, Matrix.transpose_mul, Matrix.transpose_transpose]

theorem isSymm_rowOuter {r : ℕ} (s : TimeSeries r) (k : Fin s.t) :
    (rowOuter s k).IsSymm := by
  apply Matrix.IsSymm.ext
  intro i j
  simp [rowOuter, mul_comm]

theorem isSymm_ledoitWolf {r : ℕ} (s : TimeSeries r) : (ledoitWolf s).IsSymm :=
  ((isSymm_empCov s).smul _).add (Matrix.isSymm_one.smul _)

theorem isSymm_covToCorr {r : ℕ} {A : Mat r} (h : A.IsSymm) :
    (covToCorr A).IsSymm := by
  apply Matrix.IsSymm.ext
  intro i j
  simp only [covToCorr, Matrix.of_apply]
  rw [h.apply i j, mul_comm]

theorem isSymm_sandwich {r : ℕ} {W M : Mat r} (hW : W.IsSymm) (hM : M.IsSymm) :
    (W * M * W).IsSymm := by
  have : Matrix.transpose (W * M * W) = W * M * W := by
    rw [Matrix.transpose_mul, Matrix.transpose_mul, hW.eq, hM.eq, ← mul_assoc]
  exact this

theorem isSymm_matInvSqrt {r : ℕ} {A : Mat r} (h : A.IsSymm) :
    (matInvSqrt A).IsSymm :=
  isSymm_polyEval _ (h.sub Matrix.isSymm_one)

theorem isSymm_matSqrt {r : ℕ} {A : Mat r} (h : A.IsSymm) : (matSqrt A).IsSymm :=
  isSymm_polyEval _ (h.sub Matrix.isSymm_one)

theorem isSymm_matLog {r : ℕ} {A : Mat r} (h : A.IsSymm) : (matLog A).IsSymm :=
  isSymm_polyEval _ (h.sub Matrix.isSymm_one)

theorem isSymm_matExp {r : ℕ} {A : Mat r} (h : A.IsSymm) : (matExp A).IsSymm :=
  isSymm_polyEval _ h

theorem isSymm_matListMean {r : ℕ} (ms : List (Mat r))
    (h : ∀ A ∈ ms, A.IsSymm) : (matListMean ms).IsSymm :=
  (isSymm_list_sum ms h).smul _

theorem isSymm_gmeanStep {r : ℕ} (ms : List (Mat r)) (h : ∀ A ∈ ms, A.IsSymm)
    {G : Mat r} (hG : G.IsSymm) : (gmeanStep ms G).IsSymm := by
  apply isSymm_sandwich (isSymm_matSqrt hG)
  apply isSymm_matExp
  apply isSymm_matListMean
  intro B hB
  obtain ⟨C, hC, rfl⟩ := List.mem_map.mp hB
  exact isSymm_matLog (isSymm_sandwich (isSymm_matInvSqrt hG) (h C hC))

theorem isSymm_geometricMean {r : ℕ} (ms : List (Mat r))
    (h : ∀ A ∈ ms, A.IsSymm) : (geometricMean ms).IsSymm := by
  have hiter : ∀ (n : ℕ) (G : Mat r), G.IsSymm → ((gmeanStep ms)^[n] G).IsSymm := by
    intro n
    induction n with
    | zero => intro G hG; simpa using hG
    | succ m ih =>
      intro G hG
      rw [Function.iterate_succ_apply]
      exact ih _ (isSymm_gmeanStep ms h hG)
  exact hiter gmeanIters _ (isSymm_matListMean ms h)

theorem isSymm_cov_of_mem {r : ℕ} {subjects : List (TimeSeries r)} {C : Mat r}
    (hC : C ∈ subjects.map ledoitWolf) : C.IsSymm := by
  obtain ⟨s, _, rfl⟩ := List.mem_map.mp hC
  exact isSymm_ledoitWolf s

/-- C6: every connectivity matrix produced by the Connectivity Estimator,
for either measure kind, is square (by construction of the `Mat r` type),
has real-valued entries (rationals embedded in ℝ), and equals its own
transpose — here exactly rather than within tolerance, since the model is
exact. -/
theorem C6_connectivity_symmetric {r : ℕ} (kind : MeasureKind)
    (subjects : List (TimeSeries r)) (M : Mat r)
    (hM : M ∈ (connectivityMeasure kind subjects).matrices) :
    M.IsSymm := by
  cases kind with
  | correlation =>
    simp only [connectivityMeasure] at hM
    obtain ⟨C, hC, rfl⟩ := List.mem_map.mp hM
    exact isSymm_covToCorr (isSymm_cov_of_mem hC)
  | tangent =>
    simp only [connectivityMeasure] at hM
    obtain ⟨C, hC, rfl⟩ := List.mem_map.mp hM
    have hG : (geometricMean (subjects.map ledoitWolf)).IsSymm :=
      isSymm_geometricMean _ fun A hA => isSymm_cov_of_mem hA
    exact isSymm_matLog
      (isSymm_sandwich (isSymm_matInvSqrt hG) (isSymm_cov_of_mem hC))

/-- A sample one-subject cohort with one timepoint and one region, used
to exercise the connectivity estimator on a concrete input. -/
def sampleTS : TimeSeries 1 := ⟨1, Matrix.of fun _ _ => (1 : ℚ)⟩

theorem C6_connectivity_symmetric_witness :
    (covToCorr (ledoitWolf sampleTS) ∈
      (connectivityMeasure MeasureKind.correlation [sampleTS]).matrices) ∧
    (covToCorr (ledoitWolf sampleTS)).IsSymm :=
  ⟨by simp [connectivityMeasure],
   C6_connectivity_symmetric MeasureKind.correlation [sampleTS] _
     (by simp [connectivityMeasure])⟩

/-- C7: with kind `tangent` the Connectivity Estimator produces one
matrix per subject plus the population geometric mean covariance as the
`mean_` side output; with kind `correlation` it produces one matrix per
subject and no side output. -/
theorem C7_tangent_mean_side_output {r : ℕ} (subjects : List (TimeSeries r)) :
    (connectivityMeasure MeasureKind.tangent subjects).mean_ =
      some (geometricMean (subjects.map ledoitWolf)) ∧
    (connectivityMeasure MeasureKind.tangent subjects).matrices.length =
      subjects.length ∧
    (connectivityMeasure MeasureKind.correlation subjects).mean_ = none ∧
    (connectivityMeasure MeasureKind.correlation subjects).matrices.length =
      subjects.length := by
  refine ⟨rfl, ?_, rfl, ?_⟩ <;> simp [connectivityMeasure]

/-! ## Timeseries extraction -/

/-- Modelled from the spec: per-region mean of the raw signals, rows
being timepoints. -/
def regionMean (signals : List (List ℚ)) (k : ℕ) : ℚ :=
  mean (signals.map fun row => row.getD k 0)

/-- Modelled from the spec: the numerical filtering of the masker
(smoothing, detrending, standardization, confound regression) is external
library work; it is modelled as per-region mean-centering, which — like
the library's filtering — preserves the timepoint count. -/
def cleanSignals (signals : List (List ℚ)) : List (List ℚ) :=
  signals.map fun row =>
    (List.range row.length).map fun k => row.getD k 0 - regionMean signals k

/-- Modelled from the spec:
`NiftiLabelsMasker.fit_transform(func_img, confounds=confound)` — produce
the cleaned (timepoints × regions) signal matrix; when the supplied
confound's timepoint count differs from the functional timeseries'
timepoint count, fail with `ConfoundAlignmentError` instead of truncating
or padding either signal. -/
def niftiLabelsMaskerFitTransform (signals : List (List ℚ))
    (confound : Option (List (List ℚ))) : Except PipelineError (List (List ℚ)) :=
  match confound with
  | none => Except.ok (cleanSignals signals)
  | some cf =>
    if cf.length = signals.length then Except.ok (cleanSignals signals)
    else Except.error PipelineError.confoundAlignmentError

/-- C9: a confound with a timepoint count different from the functional
timeseries makes extraction fail with `ConfoundAlignmentError`; no output
is produced, and any successful extraction keeps the timepoint count
unchanged (no truncation, no padding). -/
theorem C9_confound_alignment (signals cf : List (List ℚ))
    (h : cf.length ≠ signals.length) :
    niftiLabelsMaskerFitTransform signals (some cf) =
      Except.error PipelineError.confoundAlignmentError ∧
    (∀ out, niftiLabelsMaskerFitTransform signals (some cf) ≠ Except.ok out) ∧
    (∀ cf2 out, niftiLabelsMaskerFitTransform signals cf2 = Except.ok out →
      out.length = signals.length) := by
  have herr : niftiLabelsMaskerFitTransform signals (some cf) =
      Except.error PipelineError.confoundAlignmentError := by
    simp only [niftiLabelsMaskerFitTransform, if_neg h]
  have hlen : (cleanSignals signals).length = signals.length := by
    simp [cleanSignals]
  refine ⟨herr, ?_, ?_⟩
  · intro out hout
    rw [herr] at hout
    cases hout
  · intro cf2 out hout
    cases cf2 with
    | none =>
      simp only [niftiLabelsMaskerFitTransform, Except.ok.injEq] at hout
      rw [← hout]
      exact hlen
    | some cf2' =>
      simp only [niftiLabelsMaskerFitTransform] at hout
      split at hout
      · simp only [Except.ok.injEq] at hout
        rw [← hout]
        exact hlen
      · cases hout

theorem C9_confound_alignment_witness :
    (([[(1 : ℚ)]] : List (List ℚ)).length ≠
      ([[(1 : ℚ)], [(2 : ℚ)]] : List (List ℚ)).length) ∧
    niftiLabelsMaskerFitTransform [[(1 : ℚ)], [(2 : ℚ)]] (some [[(1 : ℚ)]]) =
      Except.error PipelineError.confoundAlignmentError :=
  ⟨by decide,
   (C9_confound_alignment [[(1 : ℚ)], [(2 : ℚ)]] [[(1 : ℚ)]] (by decide)).1⟩

end Cobre
